import Mathlib

/-!
Shallow embedding of `src/component/CharacterList/index.tsx`.

The component manages a list of character records.  We model:

* the filter/sort pipeline `getFilteredAndSortedCharacters` (lines 71–95),
  including the JavaScript aliasing behaviour of `Array.prototype.sort`
  (in place, so it mutates the array it is called on);
* the pagination routine `loadMoreCharacters` (lines 45–68) as a step
  function on a state record, parametrised by the outcome of the fetch;
* the de-duplicating merge `Array.from(new Map(list.map(c => [c.id, c])).values())`
  (line 56) via an explicit association-list model of a JavaScript `Map`
  (insertion-ordered keys, `set` on an existing key updates the value in
  place and keeps the key position);
* the delete and edit handlers `handleDelete` (lines 109–131) and
  `saveEdit` (lines 141–147) acting on the component-visible state
  (parent-owned collection, selection, the two modal-visibility flags).

JavaScript string primitives used by the source (`<` comparison,
`toLowerCase`, `includes`) are modelled by structural functions on
`String.data` so that every definition evaluates inside the kernel.
-/

/-- A character record, as described by the `Character` interface used by the
component: integer identifier, display name, status string, image URI. -/
structure Character where
  id : Nat
  name : String
  status : String
  image : String
deriving DecidableEq, Repr

/-- The `sortOrder` prop: `"asc" | "desc"`. -/
inductive SortOrder where
  | asc : SortOrder
  | desc : SortOrder
deriving DecidableEq, Repr

/-- Model of the JavaScript `<` comparison on strings: lexicographic
comparison of the character sequences by code point. -/
def lexLt : List Char → List Char → Bool
  | [], [] => false
  | [], _ :: _ => true
  | _ :: _, [] => false
  | a :: as, b :: bs =>
    if a < b then true
    else if b < a then false
    else lexLt as bs

/-- Model of JavaScript `String.prototype.toLowerCase`: lower-case every
character. -/
def lowerStr (s : String) : String :=
  String.mk (s.data.map Char.toLower)

/-- Helper for `includes`: does the second list contain the first as a
contiguous sublist? -/
def containsSub (needle : List Char) : List Char → Bool
  | [] => needle.isEmpty
  | c :: rest => needle.isPrefixOf (c :: rest) || containsSub needle rest

/-- Model of JavaScript `s.includes(sub)`. -/
def includes (s sub : String) : Bool :=
  containsSub sub.data s.data

/-- The ordering the component's comparator induces on records
(`(a, b) => { if (a.name < b.name) return sortOrder === "asc" ? -1 : 1; ... }`):
`nameLe o a b` holds when the comparator does not place `b` strictly
before `a`. -/
def nameLe (o : SortOrder) (a b : Character) : Prop :=
  match o with
  | SortOrder.asc => lexLt b.name.data a.name.data = false
  | SortOrder.desc => lexLt a.name.data b.name.data = false

instance instDecNameLe (o : SortOrder) : DecidableRel (nameLe o) :=
  fun a b =>
    match o with
    | SortOrder.asc => instDecidableEqBool (lexLt b.name.data a.name.data) false
    | SortOrder.desc => instDecidableEqBool (lexLt a.name.data b.name.data) false

/-- The filter/sort pipeline of the `useEffect` at lines 71–95, with the
aliasing of JavaScript arrays made explicit.  `filtered` starts as an alias
of the `characters` prop; each `Array.prototype.filter` allocates a fresh
array; `Array.prototype.sort` sorts **in place** the array `filtered`
refers to.  The result is the pair `(view, source-after-call)`: the first
component is the value stored into `filteredCharacters`, the second is the
content of the parent-owned `characters` array after the call (mutated
exactly when both filter steps were skipped, i.e. when
`filter === "All"` and `searchTerm` is empty, because then `sort` runs
directly on the shared array).  JavaScript's engine sort is stable and the
comparator is a total preorder on the name, so the sort result is modelled
by the stable `List.insertionSort` on `nameLe`.

Lines 75–77 are `statusStep`:
`if (filter !== "All") filtered = filtered.filter(c => c.status === filter)`;
lines 79–83 are `searchStep`:
`if (searchTerm) filtered = filtered.filter(c =>
c.name.toLowerCase().includes(searchTerm.toLowerCase()))` (a JavaScript
string is truthy exactly when it is non-empty). -/
def statusStep (filt : String) (cs : List Character) : List Character :=
  if filt ≠ "All" then cs.filter (fun c => c.status == filt) else cs

def searchStep (searchTerm : String) (cs : List Character) : List Character :=
  if searchTerm ≠ "" then
    cs.filter (fun c => includes (lowerStr c.name) (lowerStr searchTerm))
  else cs

def getFilteredAndSortedCharacters (characters : List Character)
    (filt searchTerm : String) (sortOrder : SortOrder) :
    List Character × List Character :=
  let sorted :=
    List.insertionSort (nameLe sortOrder) (searchStep searchTerm (statusStep filt characters))
  (sorted, if filt = "All" ∧ searchTerm = "" then sorted else characters)

/-- One JavaScript `Map.prototype.set` on an insertion-ordered association
list: setting an existing key overwrites its value in place (the key keeps
its position); a new key is appended. -/
def mapSet (m : List (Nat × Character)) (k : Nat) (v : Character) :
    List (Nat × Character) :=
  if m.any (fun p => p.1 == k) then
    m.map (fun p => if p.1 == k then (k, v) else p)
  else m ++ [(k, v)]

/-- `new Map(cs.map(c => [c.id, c]))`: build the map by repeated `set` in
list order. -/
def mapFromList (cs : List Character) : List (Nat × Character) :=
  cs.foldl (fun m c => mapSet m c.id c) []

/-- Line 56: `Array.from(new Map(cs.map(c => [c.id, c])).values())` —
remove duplicate identifiers, keeping the first-occurrence position and the
last-occurrence value of each identifier. -/
def dedupById (cs : List Character) : List Character :=
  (mapFromList cs).map (fun p => p.2)

/-- Lines 54–56: merge a fetched page into the current full collection. -/
def mergeCharacters (allCharacters results : List Character) : List Character :=
  dedupById (allCharacters ++ results)

/-- The last record with identifier `k` in `cs`, if any (the "later seen"
value for that identifier). -/
def lastWithId (cs : List Character) (k : Nat) : Option Character :=
  cs.reverse.find? (fun c => c.id == k)

/-- Replace a map entry's value by the last value the given page holds for
its key (used to describe what a sequence of `set`s does to an existing
entry). -/
def applyLast (page : List Character) (p : Nat × Character) : Nat × Character :=
  match lastWithId page p.1 with
  | some c => (p.1, c)
  | none => p

/-- The component state touched by `loadMoreCharacters`: the hook-owned
collection, the page cursor, and the `hasMore` / `loadingMore` flags. -/
structure PaginationState where
  allCharacters : List Character
  page : Nat
  hasMore : Bool
  loadingMore : Bool
deriving DecidableEq, Repr

/-- Initial pagination state (lines 41–43): `page = 1`, `hasMore = true`,
`loadingMore = false`; the collection starts as whatever the data hook
currently holds. -/
def initialPaginationState (cs : List Character) : PaginationState :=
  { allCharacters := cs, page := 1, hasMore := true, loadingMore := false }

/-- Outcome of the `fetch` + `response.json()` at lines 50–51: either a
parsed body with a `results` array, or a transport/parse error. -/
inductive FetchOutcome where
  | ok : List Character → FetchOutcome
  | fetchError : FetchOutcome
deriving DecidableEq, Repr

/-- `loadMoreCharacters` (lines 45–68) as a step function.  The second
component of the result records whether a network request was issued.
If the guard `loadingMore || !hasMore` fires the call returns at once.
Otherwise the in-flight flag is raised, the fetch runs with the given
outcome, and the `finally` block lowers the flag on every path:
a non-empty `results` is merged into the collection and the cursor is
incremented, an empty `results` latches `hasMore` to false, and an error
only logs. -/
def loadMoreCharacters (s : PaginationState) (outcome : FetchOutcome) :
    PaginationState × Bool :=
  if s.loadingMore || !s.hasMore then (s, false)
  else
    let s1 : PaginationState := { s with loadingMore := true }
    match outcome with
    | FetchOutcome.ok results =>
      if results.length > 0 then
        ({ s1 with
            allCharacters := mergeCharacters s1.allCharacters results,
            page := s1.page + 1,
            loadingMore := false }, true)
      else
        ({ s1 with hasMore := false, loadingMore := false }, true)
    | FetchOutcome.fetchError =>
      ({ s1 with loadingMore := false }, true)

/-- Run a sequence of `loadMoreCharacters` calls with the given fetch
outcomes. -/
def runLoadMore (s : PaginationState) (outcomes : List FetchOutcome) :
    PaginationState :=
  outcomes.foldl (fun t o => (loadMoreCharacters t o).1) s

/-- The component state touched by `saveEdit` and `handleDelete`: the
parent-owned collection, the current selection, and the two
modal-visibility flags. -/
structure UIState where
  characters : List Character
  selectedCharacter : Option Character
  isModalVisible : Bool
  isEditModalVisible : Bool
deriving DecidableEq, Repr

/-- `saveEdit` (lines 141–147): map the parent-owned collection, replacing
every record whose identifier equals `updatedCharacter.id`, publish it via
`setCharacters`, and hide the edit modal.  Neither `selectedCharacter` nor
`isModalVisible` is touched. -/
def saveEdit (s : UIState) (updatedCharacter : Character) : UIState :=
  { s with
      characters := s.characters.map
        (fun char => if char.id == updatedCharacter.id then updatedCharacter else char),
      isEditModalVisible := false }

/-- `handleDelete` (lines 109–131).  `Alert.alert` returns immediately, so
`setIsModalVisible(false)` at line 130 runs unconditionally, before the
user answers; only the `onPress` of the destructive button (filtering the
collection) depends on confirmation.  `confirmed` records the user's
answer. -/
def handleDelete (s : UIState) (i : Nat) (confirmed : Bool) : UIState :=
  let s1 : UIState := { s with isModalVisible := false }
  if confirmed then
    { s1 with characters := s1.characters.filter (fun c => !(c.id == i)) }
  else s1

/-- The survivors of the claimed pipeline, written from the claim's own
wording: (1) if the status-filter is not "All", keep only records whose
status equals it; (2) if the search term is non-empty, keep only records
whose lowercased name contains the lowercased term as a substring. -/
def specSurvivors (cs : List Character) (filt searchTerm : String) : List Character :=
  let s1 := if filt = "All" then cs else cs.filter (fun c => decide (c.status = filt))
  if searchTerm = "" then s1
  else s1.filter (fun c => decide ((lowerStr searchTerm).data <:+: (lowerStr c.name).data))

-- ------------------------------------------------------------------
-- Theorems
-- ------------------------------------------------------------------

-- quick sanity checks of the executable model (spec §8 scenarios)
example :
    (getFilteredAndSortedCharacters
      [⟨1, "Morty", "Alive", ""⟩] "All" "" SortOrder.asc).1
      = [⟨1, "Morty", "Alive", ""⟩] := by decide

example :
    (getFilteredAndSortedCharacters
      [⟨1, "Rick", "Alive", ""⟩, ⟨2, "Beth", "Alive", ""⟩] "All" "" SortOrder.desc).1
      = [⟨1, "Rick", "Alive", ""⟩, ⟨2, "Beth", "Alive", ""⟩] := by decide

example :
    includes (lowerStr "Rick Sanchez") (lowerStr "RICK") = true := by decide

example :
    mergeCharacters [⟨1, "Rick", "Alive", ""⟩] [⟨1, "Rick2", "Dead", ""⟩, ⟨2, "Beth", "Alive", ""⟩]
      = [⟨1, "Rick2", "Dead", ""⟩, ⟨2, "Beth", "Alive", ""⟩] := by decide

/-- `lexLt` is asymmetric. -/
theorem lexLt_asymm : ∀ {x y : List Char}, lexLt x y = true → lexLt y x = false := by
  intro x
  induction x with
  | nil =>
    intro y h
    cases y with
    | nil => simp [lexLt] at h
    | cons b bs => simp [lexLt]
  | cons a as ih =>
    intro y h
    cases y with
    | nil => simp [lexLt] at h
    | cons b bs =>
      by_cases hab : a < b
      · have hba : ¬ b < a := lt_asymm hab
        simp [lexLt, hab, hba]
      · by_cases hba : b < a
        · simp [lexLt, hab, hba] at h
        · simp [lexLt, hab, hba] at h ⊢
          exact ih h

/-- `lexLt` is transitive. -/
theorem lexLt_trans :
    ∀ {x y z : List Char}, lexLt x y = true → lexLt y z = true → lexLt x z = true := by
  intro x
  induction x with
  | nil =>
    intro y z hxy hyz
    cases y with
    | nil => simp [lexLt] at hxy
    | cons b bs =>
      cases z with
      | nil => simp [lexLt] at hyz
      | cons c cs => simp [lexLt]
  | cons a as ih =>
    intro y z hxy hyz
    cases y with
    | nil => simp [lexLt] at hxy
    | cons b bs =>
      cases z with
      | nil => simp [lexLt] at hyz
      | cons c cs =>
        by_cases hab : a < b
        · by_cases hbc : b < c
          · have hac : a < c := lt_trans hab hbc
            simp [lexLt, hac]
          · by_cases hcb : c < b
            · simp [lexLt, hbc, hcb] at hyz
            · have hbc' : b = c := le_antisymm (not_lt.mp hcb) (not_lt.mp hbc)
              subst hbc'
              simp [lexLt, hab]
        · by_cases hba : b < a
          · simp [lexLt, hab, hba] at hxy
          · have hab' : a = b := le_antisymm (not_lt.mp hba) (not_lt.mp hab)
            subst hab'
            simp [lexLt, hab] at hxy
            by_cases hac : a < c
            · simp [lexLt, hac]
            · by_cases hca : c < a
              · simp [lexLt, hac, hca] at hyz
              · simp [lexLt, hac, hca] at hyz ⊢
                exact ih hxy hyz

/-- Two lists neither of which is `lexLt`-below the other are equal. -/
theorem eq_of_lexLt_false :
    ∀ {x y : List Char}, lexLt x y = false → lexLt y x = false → x = y := by
  intro x
  induction x with
  | nil =>
    intro y hxy _
    cases y with
    | nil => rfl
    | cons b bs => simp [lexLt] at hxy
  | cons a as ih =>
    intro y hxy hyx
    cases y with
    | nil => simp [lexLt] at hyx
    | cons b bs =>
      by_cases hab : a < b
      · simp [lexLt, hab] at hxy
      · by_cases hba : b < a
        · simp [lexLt, hba] at hyx
        · have hab' : a = b := le_antisymm (not_lt.mp hba) (not_lt.mp hab)
          subst hab'
          simp [lexLt, hab] at hxy hyx
          rw [ih hxy hyx]

/-- Transitivity of the complement of `lexLt`. -/
theorem lexLt_false_trans {x y z : List Char}
    (h1 : lexLt y x = false) (h2 : lexLt z y = false) : lexLt z x = false := by
  cases hzx : lexLt z x with
  | false => rfl
  | true =>
    cases hyz : lexLt y z with
    | true =>
      have : lexLt y x = true := lexLt_trans hyz hzx
      rw [this] at h1
      exact h1
    | false =>
      have hyz' : y = z := eq_of_lexLt_false hyz h2
      subst hyz'
      rw [hzx] at h1
      exact h1

instance instTotalNameLe (o : SortOrder) : IsTotal Character (nameLe o) := by
  constructor
  intro a b
  cases o with
  | asc =>
    cases h : lexLt b.name.data a.name.data with
    | false => exact Or.inl h
    | true => exact Or.inr (lexLt_asymm h)
  | desc =>
    cases h : lexLt a.name.data b.name.data with
    | false => exact Or.inl h
    | true => exact Or.inr (lexLt_asymm h)

instance instTransNameLe (o : SortOrder) : IsTrans Character (nameLe o) := by
  constructor
  intro a b c hab hbc
  cases o with
  | asc => exact lexLt_false_trans hab hbc
  | desc => exact lexLt_false_trans hbc hab

/-- `containsSub` decides contiguous-sublist containment. -/
theorem containsSub_iff {needle hay : List Char} :
    containsSub needle hay = true ↔ needle <:+: hay := by
  induction hay with
  | nil => simp [containsSub, List.isEmpty_iff, List.infix_nil]
  | cons c rest ih =>
    simp [containsSub, Bool.or_eq_true, List.isPrefixOf_iff_prefix, ih,
      List.infix_cons_iff]

/-- The status predicate of the code (`===` on strings, modelled by `==`)
agrees with the claim-side decidable equality. -/
theorem statusStep_eq_claim (filt : String) (cs : List Character) :
    statusStep filt cs
      = (if filt = "All" then cs else cs.filter (fun c => decide (c.status = filt))) := by
  by_cases hf : filt = "All"
  · simp [statusStep, hf]
  · simp only [statusStep, hf, if_neg, ne_eq, not_false_iff, if_true, if_false]
    exact List.filter_congr fun c _ => by rw [Bool.eq_iff_iff]; simp

/-- The search predicate of the code (`toLowerCase` + `includes`) agrees
with the claim-side substring relation on the lowercased strings. -/
theorem searchStep_eq_claim (t : String) (cs : List Character) :
    searchStep t cs
      = (if t = "" then cs
         else cs.filter (fun c => decide ((lowerStr t).data <:+: (lowerStr c.name).data))) := by
  by_cases ht : t = ""
  · simp [searchStep, ht]
  · rw [searchStep, if_pos ht, if_neg ht]
    refine List.filter_congr fun c _ => ?_
    rw [Bool.eq_iff_iff]
    simp [includes, containsSub_iff]

/-- Elements of `searchStep t l` come from `l`. -/
theorem mem_of_mem_searchStep {t : String} {l : List Character} {a : Character}
    (h : a ∈ searchStep t l) : a ∈ l := by
  by_cases ht : t = ""
  · simpa [searchStep, ht] using h
  · rw [searchStep, if_pos ht] at h
    exact (List.mem_filter.mp h).1

/-- C1: for every collection, status-filter string, search term and sort
direction, the derived view consists exactly of the records surviving the
claimed two filter steps — status equality when the filter is not "All",
then case-insensitive substring match on the name when the term is
non-empty — arranged in an order that is sorted by name, ascending or
descending per the sort direction (ties are left arbitrary by the claim,
so the view is a permutation of the survivors together with sortedness). -/
theorem getFilteredAndSortedCharacters_spec
    (cs : List Character) (filt searchTerm : String) (o : SortOrder) :
    ((getFilteredAndSortedCharacters cs filt searchTerm o).1).Perm
        (specSurvivors cs filt searchTerm) ∧
    List.Sorted (nameLe o) (getFilteredAndSortedCharacters cs filt searchTerm o).1 := by
  have hsteps : searchStep searchTerm (statusStep filt cs)
      = specSurvivors cs filt searchTerm := by
    rw [searchStep_eq_claim, statusStep_eq_claim, specSurvivors]
  constructor
  · have h1 : (getFilteredAndSortedCharacters cs filt searchTerm o).1
        = List.insertionSort (nameLe o) (searchStep searchTerm (statusStep filt cs)) := rfl
    rw [h1, hsteps]
    exact List.perm_insertionSort (nameLe o) _
  · exact List.sorted_insertionSort (nameLe o) _

/-- C9: the filter/sort pipeline is idempotent — applying it to its own
output with the same status filter, search term and sort direction
returns that output unchanged. -/
theorem getFilteredAndSortedCharacters_idem
    (cs : List Character) (filt t : String) (o : SortOrder) :
    (getFilteredAndSortedCharacters
        ((getFilteredAndSortedCharacters cs filt t o).1) filt t o).1
      = (getFilteredAndSortedCharacters cs filt t o).1 := by
  have hv : (getFilteredAndSortedCharacters cs filt t o).1
      = List.insertionSort (nameLe o) (searchStep t (statusStep filt cs)) := rfl
  set w := searchStep t (statusStep filt cs) with hw
  set v := List.insertionSort (nameLe o) w with hvdef
  rw [hv]
  have hmem : ∀ a, a ∈ v → a ∈ w := fun a ha =>
    (List.perm_insertionSort (nameLe o) w).mem_iff.mp ha
  have hstatus : statusStep filt v = v := by
    by_cases hf : filt = "All"
    · simp [statusStep, hf]
    · simp only [statusStep, hf, ne_eq, not_false_iff, if_true, if_false]
      refine List.filter_eq_self.mpr fun a ha => ?_
      have haw : a ∈ statusStep filt cs := mem_of_mem_searchStep (hmem a ha)
      simp only [statusStep, hf, ne_eq, not_false_iff, if_true, if_false] at haw
      exact (List.mem_filter.mp haw).2
  have hsearch : searchStep t v = v := by
    by_cases ht : t = ""
    · simp [searchStep, ht]
    · rw [searchStep, if_pos ht]
      refine List.filter_eq_self.mpr fun a ha => ?_
      have haw : a ∈ w := hmem a ha
      rw [hw, searchStep, if_pos ht] at haw
      exact (List.mem_filter.mp haw).2
  have hstep : (getFilteredAndSortedCharacters v filt t o).1
      = List.insertionSort (nameLe o) (searchStep t (statusStep filt v)) := rfl
  rw [hstep, hstatus, hsearch]
  exact (List.sorted_insertionSort (nameLe o) w).insertionSort_eq

theorem lastWithId_nil (k : Nat) : lastWithId [] k = none := rfl

theorem lastWithId_cons (c : Character) (cs : List Character) (k : Nat) :
    lastWithId (c :: cs) k
      = (lastWithId cs k).or (if c.id == k then some c else none) := by
  simp only [lastWithId, List.reverse_cons, List.find?_append]
  congr 1
  cases h : c.id == k
  · simp [List.find?_cons, h]
  · simp [List.find?_cons, h]

theorem lastWithId_append (l1 l2 : List Character) (k : Nat) :
    lastWithId (l1 ++ l2) k = (lastWithId l2 k).or (lastWithId l1 k) := by
  simp [lastWithId, List.reverse_append, List.find?_append]

/-- An entry of `mapSet m k v` whose key is `k` is `(k, v)`. -/
theorem mapSet_eq_of_fst_eq {m : List (Nat × Character)} {k : Nat} {v : Character}
    {p : Nat × Character} (hp : p ∈ mapSet m k v) (hk : p.1 = k) : p = (k, v) := by
  rw [mapSet] at hp
  by_cases h : m.any (fun q => q.1 == k) = true
  · rw [if_pos h] at hp
    obtain ⟨q, hq, hfq⟩ := List.mem_map.mp hp
    by_cases hqk : q.1 == k
    · rw [if_pos hqk] at hfq
      exact hfq.symm
    · rw [if_neg hqk] at hfq
      subst hfq
      exact absurd (beq_iff_eq.mpr hk) hqk
  · rw [if_neg h] at hp
    rcases List.mem_append.mp hp with hm | hv
    · have h' : m.any (fun q => q.1 == k) = false := Bool.eq_false_iff.mpr h
      have := List.any_eq_false.mp h' p hm
      exact absurd (beq_iff_eq.mpr hk) this
    · simpa using hv

/-- An entry of `mapSet m k v` whose key is not `k` was already in `m`. -/
theorem mapSet_mem_of_fst_ne {m : List (Nat × Character)} {k : Nat} {v : Character}
    {p : Nat × Character} (hp : p ∈ mapSet m k v) (hk : p.1 ≠ k) : p ∈ m := by
  rw [mapSet] at hp
  by_cases h : m.any (fun q => q.1 == k) = true
  · rw [if_pos h] at hp
    obtain ⟨q, hq, hfq⟩ := List.mem_map.mp hp
    by_cases hqk : q.1 == k
    · rw [if_pos hqk] at hfq
      subst hfq
      simp at hk
    · rw [if_neg hqk] at hfq
      subst hfq
      exact hq
  · rw [if_neg h] at hp
    rcases List.mem_append.mp hp with hm | hv
    · exact hm
    · simp at hv
      subst hv
      simp at hk
/-- `mapSet` preserves the invariant that each entry's value carries its
key as identifier. -/
theorem mapSet_inv {m : List (Nat × Character)} {k : Nat} {v : Character}
    (hm : ∀ p ∈ m, p.2.id = p.1) (hv : v.id = k) :
    ∀ p ∈ mapSet m k v, p.2.id = p.1 := by
  intro p hp
  rw [mapSet] at hp
  by_cases h : m.any (fun q => q.1 == k) = true
  · rw [if_pos h] at hp
    obtain ⟨q, hq, hfq⟩ := List.mem_map.mp hp
    by_cases hqk : q.1 == k
    · rw [if_pos hqk] at hfq
      subst hfq
      simpa using hv
    · rw [if_neg hqk] at hfq
      subst hfq
      exact hm q hq
  · rw [if_neg h] at hp
    rcases List.mem_append.mp hp with hmm | hvv
    · exact hm p hmm
    · simp at hvv
      subst hvv
      simpa using hv

/-- The keys of `mapSet m k v` when `k` is already present. -/
theorem mapSet_keys_update {m : List (Nat × Character)} {k : Nat} {v : Character}
    (h : m.any (fun q => q.1 == k) = true) :
    (mapSet m k v).map Prod.fst = m.map Prod.fst := by
  rw [mapSet, if_pos h, List.map_map]
  refine List.map_congr_left fun p _ => ?_
  by_cases hp : p.1 == k
  · simp [hp, beq_iff_eq.mp hp]
  · have hp' : ¬(p.1 = k) := by simpa using hp
    simp [hp']

/-- `mapSet` preserves key distinctness. -/
theorem mapSet_keys_nodup {m : List (Nat × Character)} {k : Nat} {v : Character}
    (h : (m.map Prod.fst).Nodup) : ((mapSet m k v).map Prod.fst).Nodup := by
  by_cases hk : m.any (fun q => q.1 == k) = true
  · rw [mapSet_keys_update hk]
    exact h
  · have hk' : m.any (fun q => q.1 == k) = false := Bool.eq_false_iff.mpr hk
    rw [mapSet, if_neg hk, List.map_append]
    rw [List.nodup_append]
    refine ⟨h, List.nodup_singleton k, ?_⟩
    intro x hx hx'
    simp at hx'
    subst hx'
    obtain ⟨q, hq, hq'⟩ := List.mem_map.mp hx
    have := List.any_eq_false.mp hk' q hq
    rw [hq'] at this
    simp at this

/-- Every entry of a `mapSet`-fold satisfies the key/value invariant. -/
theorem foldl_mapSet_inv :
    ∀ (cs : List Character) (m : List (Nat × Character)),
      (∀ p ∈ m, p.2.id = p.1) →
      ∀ p ∈ List.foldl (fun acc c => mapSet acc c.id c) m cs, p.2.id = p.1 := by
  intro cs
  induction cs with
  | nil => intro m hm p hp; exact hm p hp
  | cons c rest ih =>
    intro m hm p hp
    exact ih (mapSet m c.id c) (mapSet_inv hm rfl) p hp

/-- A `mapSet`-fold preserves key distinctness. -/
theorem foldl_mapSet_keys_nodup :
    ∀ (cs : List Character) (m : List (Nat × Character)),
      (m.map Prod.fst).Nodup →
      ((List.foldl (fun acc c => mapSet acc c.id c) m cs).map Prod.fst).Nodup := by
  intro cs
  induction cs with
  | nil => intro m hm; exact hm
  | cons c rest ih => intro m hm; exact ih (mapSet m c.id c) (mapSet_keys_nodup hm)

/-- Each entry surviving a `mapSet`-fold holds the last value the folded
list carried for its key (or was an untouched entry of the start map whose
key the list never mentions). -/
theorem foldl_mapSet_last :
    ∀ (cs : List Character) (m : List (Nat × Character)),
      (∀ p ∈ m, p.2.id = p.1) →
      ∀ p ∈ List.foldl (fun acc c => mapSet acc c.id c) m cs,
        lastWithId cs p.1 = some p.2 ∨ (lastWithId cs p.1 = none ∧ p ∈ m) := by
  intro cs
  induction cs with
  | nil =>
    intro m hm p hp
    exact Or.inr ⟨rfl, hp⟩
  | cons c rest ih =>
    intro m hm p hp
    have hp' := ih (mapSet m c.id c) (mapSet_inv hm rfl) p hp
    rcases hp' with h | ⟨hnone, hmem⟩
    · left
      rw [lastWithId_cons, h]
      rfl
    · by_cases hpc : p.1 = c.id
      · left
        have hpe : p = (c.id, c) := mapSet_eq_of_fst_eq hmem hpc
        rw [lastWithId_cons, hnone, hpc]
        simp [hpe]
      · right
        constructor
        · rw [lastWithId_cons, hnone]
          have : (c.id == p.1) = false := by
            simp
            exact fun h => hpc h.symm
          simp [this]
        · exact mapSet_mem_of_fst_ne hmem hpc

/-- Every record published by `dedupById` is the last record of the input
carrying its identifier. -/
theorem dedupById_last_wins (cs : List Character) :
    ∀ d ∈ dedupById cs, lastWithId cs d.id = some d := by
  intro d hd
  obtain ⟨p, hp, hp'⟩ := List.mem_map.mp hd
  have hinv : p.2.id = p.1 :=
    foldl_mapSet_inv cs [] (by intro q hq; simp at hq) p hp
  have := foldl_mapSet_last cs [] (by intro q hq; simp at hq) p hp
  rcases this with h | ⟨_, habs⟩
  · rw [hp'] at hinv h
    rw [hinv]
    exact h
  · simp at habs

/-- The identifiers published by `dedupById` are pairwise distinct. -/
theorem dedupById_nodup_ids (cs : List Character) :
    ((dedupById cs).map (fun c => c.id)).Nodup := by
  have hkeys : ((mapFromList cs).map Prod.fst).Nodup :=
    foldl_mapSet_keys_nodup cs [] (by simp)
  have : (dedupById cs).map (fun c => c.id) = (mapFromList cs).map Prod.fst := by
    rw [dedupById, List.map_map]
    exact List.map_congr_left fun p hp =>
      foldl_mapSet_inv cs [] (by intro q hq; simp at hq) p hp
  rw [this]
  exact hkeys

/-- `mapSet` preserves presence of any key. -/
theorem mapSet_key_mem_preserved {m : List (Nat × Character)} {k' : Nat} {v : Character}
    {k : Nat} (h : ∃ p ∈ m, p.1 = k) : ∃ p ∈ mapSet m k' v, p.1 = k := by
  obtain ⟨p, hp, hpk⟩ := h
  rw [mapSet]
  by_cases hany : m.any (fun q => q.1 == k') = true
  · rw [if_pos hany]
    refine ⟨if p.1 == k' then (k', v) else p, List.mem_map.mpr ⟨p, hp, rfl⟩, ?_⟩
    by_cases hpk' : p.1 == k'
    · rw [if_pos hpk']
      rw [← beq_iff_eq.mp hpk']
      exact hpk
    · rw [if_neg hpk']
      exact hpk
  · rw [if_neg hany]
    exact ⟨p, List.mem_append.mpr (Or.inl hp), hpk⟩

/-- After `mapSet m k v` the key `k` is present. -/
theorem mapSet_key_mem_self (m : List (Nat × Character)) (k : Nat) (v : Character) :
    ∃ p ∈ mapSet m k v, p.1 = k := by
  rw [mapSet]
  by_cases hany : m.any (fun q => q.1 == k) = true
  · rw [if_pos hany]
    obtain ⟨q, hq, hqk⟩ := List.any_eq_true.mp hany
    refine ⟨(k, v), List.mem_map.mpr ⟨q, hq, ?_⟩, rfl⟩
    simp [hqk]
  · rw [if_neg hany]
    exact ⟨(k, v), List.mem_append.mpr (Or.inr (by simp)), rfl⟩

/-- A `mapSet`-fold preserves presence of any key. -/
theorem foldl_mapSet_key_mem :
    ∀ (cs : List Character) (m : List (Nat × Character)) (k : Nat),
      (∃ p ∈ m, p.1 = k) →
      ∃ p ∈ List.foldl (fun acc c => mapSet acc c.id c) m cs, p.1 = k := by
  intro cs
  induction cs with
  | nil => intro m k h; exact h
  | cons c rest ih =>
    intro m k h
    exact ih (mapSet m c.id c) k (mapSet_key_mem_preserved h)

/-- Every identifier of the folded list ends up as a key of the map. -/
theorem foldl_mapSet_covers :
    ∀ (cs : List Character) (m : List (Nat × Character)) (c : Character), c ∈ cs →
      ∃ p ∈ List.foldl (fun acc c => mapSet acc c.id c) m cs, p.1 = c.id := by
  intro cs
  induction cs with
  | nil => intro m c h; simp at h
  | cons c' rest ih =>
    intro m c hc
    rcases List.mem_cons.mp hc with hce | hcr
    · subst hce
      exact foldl_mapSet_key_mem rest (mapSet m c.id c) c.id
        (mapSet_key_mem_self m c.id c)
    · exact ih (mapSet m c'.id c') c hcr

/-- Every identifier of the input is represented in `dedupById`'s output. -/
theorem dedupById_covers (cs : List Character) :
    ∀ c ∈ cs, ∃ d ∈ dedupById cs, d.id = c.id := by
  intro c hc
  obtain ⟨p, hp, hpk⟩ := foldl_mapSet_covers cs [] c hc
  have hinv : p.2.id = p.1 :=
    foldl_mapSet_inv cs [] (by intro q hq; simp at hq) p hp
  exact ⟨p.2, List.mem_map.mpr ⟨p, hp, rfl⟩, by rw [hinv, hpk]⟩

/-- C3: after any pagination merge the published collection holds each
identifier at most once; every identifier of the previous collection and
of the fetched page is still represented; and whenever the fetched page
contains a record whose identifier already occurs in the existing
collection, the record kept for that identifier is the last matching
record of the fetched page — the later-seen, fetched value wins. -/
theorem mergeCharacters_no_dup_last_wins (existing page : List Character) :
    ((mergeCharacters existing page).map (fun c => c.id)).Nodup ∧
    (∀ c ∈ existing ++ page, ∃ d ∈ mergeCharacters existing page, d.id = c.id) ∧
    (∀ d ∈ mergeCharacters existing page,
      (∃ c ∈ existing, c.id = d.id) → (∃ c ∈ page, c.id = d.id) →
      lastWithId page d.id = some d ∧ d ∈ page) := by
  refine ⟨dedupById_nodup_ids _, fun c hc => dedupById_covers _ c hc, ?_⟩
  intro d hd _ hpg
  have hlast : lastWithId (existing ++ page) d.id = some d :=
    dedupById_last_wins _ d hd
  rw [lastWithId_append] at hlast
  obtain ⟨c, hc, hcid⟩ := hpg
  have hsome : (lastWithId page d.id).isSome := by
    rw [lastWithId, List.find?_isSome]
    exact ⟨c, List.mem_reverse.mpr hc, by simp [hcid]⟩
  obtain ⟨e, he⟩ := Option.isSome_iff_exists.mp hsome
  rw [he] at hlast
  simp [Option.or] at hlast
  subst hlast
  refine ⟨he, ?_⟩
  exact List.mem_reverse.mp (List.mem_of_find?_eq_some he)

/-- Witness for `mergeCharacters_no_dup_last_wins`: the fetched page
updates the record with identifier 1 and appends identifier 2. -/
theorem mergeCharacters_no_dup_last_wins_witness :
    (⟨1, "Rick", "Alive", ""⟩ : Character) ∈
        ([⟨1, "Rick", "Alive", ""⟩] : List Character) ++
          [⟨1, "Rick B", "Dead", ""⟩, ⟨2, "Beth", "Alive", ""⟩] ∧
    (∃ d ∈ mergeCharacters [⟨1, "Rick", "Alive", ""⟩]
        [⟨1, "Rick B", "Dead", ""⟩, ⟨2, "Beth", "Alive", ""⟩],
      d.id = (⟨1, "Rick", "Alive", ""⟩ : Character).id) :=
  ⟨by decide,
    (mergeCharacters_no_dup_last_wins [⟨1, "Rick", "Alive", ""⟩]
      [⟨1, "Rick B", "Dead", ""⟩, ⟨2, "Beth", "Alive", ""⟩]).2.1
      ⟨1, "Rick", "Alive", ""⟩ (by decide)⟩

theorem beq_symm_false {a b : Nat} (h : (a == b) = false) : (b == a) = false := by
  simp at h ⊢
  exact fun hh => h hh.symm

/-- `any` over an association list looking only at keys factors through the
key list. -/
theorem any_fst_eq (l : List (Nat × Character)) (x : Nat) :
    l.any (fun p => p.1 == x) = (l.map Prod.fst).any (fun k => k == x) := by
  induction l with
  | nil => rfl
  | cons p rest ih => simp [List.any_cons, ih]

/-- `find?` ignores a filter that keeps every hit. -/
theorem find?_filter_of_imp (p q : Character → Bool) :
    ∀ l : List Character, (∀ x ∈ l, p x = true → q x = true) →
      List.find? p (l.filter q) = List.find? p l := by
  intro l
  induction l with
  | nil => intro _; rfl
  | cons x rest ih =>
    intro h
    by_cases hpx : p x = true
    · have hqx : q x = true := h x (List.mem_cons_self x rest) hpx
      rw [List.filter_cons_of_pos hqx]
      rw [List.find?_cons_of_pos (rest.filter q) hpx, List.find?_cons_of_pos rest hpx]
    · have hrest := ih fun y hy => h y (List.mem_cons_of_mem x hy)
      by_cases hqx : q x = true
      · rw [List.filter_cons_of_pos hqx, List.find?_cons_of_neg (rest.filter q) hpx,
          List.find?_cons_of_neg rest hpx]
        exact hrest
      · rw [List.filter_cons_of_neg (by simpa using hqx), List.find?_cons_of_neg rest hpx]
        exact hrest

/-- `lastWithId` ignores a filter that keeps every record with the looked-up
identifier. -/
theorem lastWithId_filter (q : Character → Bool) (l : List Character) (k : Nat)
    (h : ∀ x ∈ l, x.id = k → q x = true) :
    lastWithId (l.filter q) k = lastWithId l k := by
  rw [lastWithId, lastWithId, ← List.filter_reverse]
  exact find?_filter_of_imp _ q l.reverse
    (fun x hx hpx => h x (List.mem_reverse.mp hx) (by simpa using hpx))

/-- `applyLast` over the empty page changes nothing. -/
theorem map_applyLast_nil (m : List (Nat × Character)) :
    List.map (applyLast []) m = m := by
  induction m with
  | nil => rfl
  | cons p rest ihm =>
    rw [List.map_cons, ihm]
    rfl

/-- How one fold of `mapSet` over a page acts on an arbitrary start map:
every existing entry is updated to the last value the page carries for its
key, and the page records with fresh keys are folded up behind them. -/
theorem foldl_mapSet_structure_aux :
    ∀ (n : Nat) (page : List Character), page.length ≤ n →
      ∀ (m : List (Nat × Character)),
        List.foldl (fun acc c => mapSet acc c.id c) m page
          = m.map (applyLast page)
            ++ List.foldl (fun acc c => mapSet acc c.id c) []
                (page.filter (fun c => !(m.any (fun p => p.1 == c.id)))) := by
  intro n
  induction n with
  | zero =>
    intro page hlen m
    have hpage : page = [] := List.length_eq_zero.mp (Nat.le_zero.mp hlen)
    subst hpage
    simp [map_applyLast_nil]
  | succ n ih =>
    intro page hlen m
    cases page with
    | nil => simp [map_applyLast_nil]
    | cons c rest =>
      have hlen' : rest.length ≤ n := by
        simp only [List.length_cons] at hlen
        omega
      have hstep : List.foldl (fun acc c => mapSet acc c.id c) m (c :: rest)
          = List.foldl (fun acc c => mapSet acc c.id c) (mapSet m c.id c) rest := rfl
      rw [hstep, ih rest hlen' (mapSet m c.id c)]
      by_cases hany : m.any (fun p => p.1 == c.id) = true
      · -- the key is already present: the entry is updated in place
        have hA1 : (mapSet m c.id c).map (applyLast rest)
            = m.map (applyLast (c :: rest)) := by
          rw [mapSet, if_pos hany, List.map_map]
          refine List.map_congr_left fun p _ => ?_
          by_cases hpc : (p.1 == c.id) = true
          · have hpc' : p.1 = c.id := beq_iff_eq.mp hpc
            simp only [Function.comp_apply, if_pos hpc]
            rw [applyLast, applyLast, lastWithId_cons, hpc']
            simp only [beq_self_eq_true, if_pos]
            cases hl : lastWithId rest c.id with
            | none => simp [Option.or]
            | some d => simp [Option.or]
          · simp only [Function.comp_apply, if_neg hpc]
            rw [applyLast, applyLast, lastWithId_cons]
            rw [beq_symm_false (Bool.eq_false_iff.mpr hpc)]
            simp [Option.or_none]
        have hA2 : ∀ d : Character,
            (mapSet m c.id c).any (fun p => p.1 == d.id)
              = m.any (fun p => p.1 == d.id) := by
          intro d
          rw [any_fst_eq, mapSet_keys_update hany, ← any_fst_eq]
        have hA3 : (c :: rest).filter (fun d => !(m.any (fun p => p.1 == d.id)))
            = rest.filter (fun d => !(m.any (fun p => p.1 == d.id))) := by
          rw [List.filter_cons_of_neg]
          simp [hany]
        rw [hA1, hA3]
        congr 2
        exact List.filter_congr fun d _ => by rw [hA2 d]
      · -- fresh key: the new entry is appended, then updated by the rest
        have hany' : m.any (fun p => p.1 == c.id) = false := Bool.eq_false_iff.mpr hany
        have hkeys : ∀ p ∈ m, (p.1 == c.id) = false := fun p hp =>
          Bool.eq_false_iff.mpr (List.any_eq_false.mp hany' p hp)
        rw [mapSet, if_neg hany]
        have hB1 : (m ++ [(c.id, c)]).map (applyLast rest)
            = m.map (applyLast (c :: rest)) ++ [applyLast rest (c.id, c)] := by
          rw [List.map_append]
          congr 1
          refine List.map_congr_left fun p hp => ?_
          rw [applyLast, applyLast, lastWithId_cons]
          rw [beq_symm_false (hkeys p hp)]
          simp [Option.or_none]
        have hfc : (fun d => !(m.any (fun p => p.1 == d.id))) c = true := by
          simp [hany']
        have hB0 : (c :: rest).filter (fun d => !(m.any (fun p => p.1 == d.id)))
            = c :: rest.filter (fun d => !(m.any (fun p => p.1 == d.id))) :=
          List.filter_cons_of_pos hfc
        rw [hB0]
        have hstep2 : List.foldl (fun acc c => mapSet acc c.id c) []
              (c :: rest.filter (fun d => !(m.any (fun p => p.1 == d.id))))
            = List.foldl (fun acc c => mapSet acc c.id c) [(c.id, c)]
                (rest.filter (fun d => !(m.any (fun p => p.1 == d.id)))) := by
          simp [mapSet]
        have hlenf : (rest.filter (fun d => !(m.any (fun p => p.1 == d.id)))).length ≤ n :=
          le_trans (List.length_filter_le _ rest) hlen'
        rw [hstep2, ih _ hlenf [(c.id, c)]]
        have hB2 : applyLast (rest.filter (fun d => !(m.any (fun p => p.1 == d.id))))
              (c.id, c) = applyLast rest (c.id, c) := by
          rw [applyLast, applyLast]
          rw [lastWithId_filter _ rest c.id ?_]
          intro x hx hxid
          have : m.any (fun p => p.1 == x.id) = false := by rw [hxid]; exact hany'
          simp [this]
        have hB3 : (rest.filter (fun d => !(m.any (fun p => p.1 == d.id)))).filter
              (fun d => !(([(c.id, c)] : List (Nat × Character)).any (fun p => p.1 == d.id)))
            = rest.filter
                (fun d => !((m ++ [(c.id, c)]).any (fun p => p.1 == d.id))) := by
          rw [List.filter_filter]
          refine List.filter_congr fun d _ => ?_
          simp [List.any_append, Bool.not_or, Bool.and_comm]
        rw [hB1, List.map_cons, List.map_nil, hB2, hB3, List.append_assoc]

theorem foldl_mapSet_structure (page : List Character) (m : List (Nat × Character)) :
    List.foldl (fun acc c => mapSet acc c.id c) m page
      = m.map (applyLast page)
        ++ List.foldl (fun acc c => mapSet acc c.id c) []
            (page.filter (fun c => !(m.any (fun p => p.1 == c.id)))) :=
  foldl_mapSet_structure_aux page.length page le_rfl m

/-- On a list with pairwise-distinct identifiers the map keeps every record
in place. -/
theorem mapFromList_of_nodup :
    ∀ cs : List Character, (cs.map (fun c => c.id)).Nodup →
      mapFromList cs = cs.map (fun c => (c.id, c)) := by
  intro cs
  induction cs with
  | nil => intro _; rfl
  | cons c rest ih =>
    intro h
    rw [List.map_cons, List.nodup_cons] at h
    obtain ⟨hnotin, hnd⟩ := h
    have h1 : mapFromList (c :: rest)
        = List.foldl (fun acc c => mapSet acc c.id c) [(c.id, c)] rest := by
      rw [mapFromList, List.foldl_cons]
      have : mapSet [] c.id c = [(c.id, c)] := by simp [mapSet]
      rw [this]
    rw [h1, foldl_mapSet_structure rest [(c.id, c)]]
    have hlast : lastWithId rest c.id = none := by
      rw [lastWithId, List.find?_eq_none]
      intro x hx hbeq
      exact hnotin (List.mem_map.mpr
        ⟨x, List.mem_reverse.mp hx, beq_iff_eq.mp (by simpa using hbeq)⟩)
    have hmapc : List.map (applyLast rest) [(c.id, c)] = [(c.id, c)] := by
      rw [List.map_cons, List.map_nil]
      have : applyLast rest (c.id, c) = (c.id, c) := by
        simp [applyLast, hlast]
      rw [this]
    have hfilter : rest.filter
          (fun d => !(([(c.id, c)] : List (Nat × Character)).any (fun p => p.1 == d.id)))
        = rest := by
      refine List.filter_eq_self.mpr fun x hx => ?_
      simp only [List.any_cons, List.any_nil, Bool.or_false, Bool.not_eq_true']
      refine Bool.eq_false_iff.mpr fun hbeq => ?_
      exact hnotin (List.mem_map.mpr ⟨x, hx, (beq_iff_eq.mp hbeq).symm⟩)
    rw [hmapc, hfilter, ← mapFromList, ih hnd]
    simp

/-- `dedupById` does not change a list whose identifiers are already
pairwise distinct. -/
theorem dedupById_of_nodup (cs : List Character)
    (h : (cs.map (fun c => c.id)).Nodup) : dedupById cs = cs := by
  rw [dedupById, mapFromList_of_nodup cs h, List.map_map]
  have : ∀ c ∈ cs, ((fun p : Nat × Character => p.2) ∘ fun c => (c.id, c)) c = c :=
    fun c _ => rfl
  rw [List.map_congr_left this, List.map_id']

theorem any_map_fst (cs : List Character) (x : Nat) :
    ((cs.map (fun c => (c.id, c))).any (fun p => p.1 == x))
      = cs.any (fun c => c.id == x) := by
  induction cs with
  | nil => rfl
  | cons c rest ih => simp [List.any_cons, ih]

/-- C10: when the existing collection has pairwise-distinct identifiers (the
invariant every published collection satisfies), the pagination merge keeps
every existing record in its position — a record whose identifier the page
mentions is replaced there by the page's last record with that identifier —
and appends the page records with fresh identifiers behind the existing
ones, in page order (de-duplicated by identifier; when the page itself has
no duplicate identifiers the appended block is exactly the fresh page
records in page order). -/
theorem mergeCharacters_preserves_positions (existing page : List Character)
    (h : (existing.map (fun c => c.id)).Nodup) :
    mergeCharacters existing page
      = existing.map (fun c => (lastWithId page c.id).getD c)
        ++ dedupById (page.filter (fun p => !(existing.any (fun c => c.id == p.id)))) ∧
    ((page.map (fun c => c.id)).Nodup →
      mergeCharacters existing page
        = existing.map (fun c => (lastWithId page c.id).getD c)
          ++ page.filter (fun p => !(existing.any (fun c => c.id == p.id)))) := by
  have h0 : mergeCharacters existing page
      = (List.foldl (fun acc c => mapSet acc c.id c) (mapFromList existing) page).map
          (fun p => p.2) := by
    simp only [mergeCharacters, dedupById, mapFromList, List.foldl_append]
  have hfiltereq : page.filter
        (fun d => !((existing.map (fun c => (c.id, c))).any (fun p => p.1 == d.id)))
      = page.filter (fun p => !(existing.any (fun c => c.id == p.id))) :=
    List.filter_congr fun d _ => by rw [any_map_fst]
  have main : mergeCharacters existing page
      = existing.map (fun c => (lastWithId page c.id).getD c)
        ++ dedupById (page.filter (fun p => !(existing.any (fun c => c.id == p.id)))) := by
    rw [h0, mapFromList_of_nodup existing h, foldl_mapSet_structure, List.map_append]
    congr 1
    · rw [List.map_map, List.map_map]
      refine List.map_congr_left fun c _ => ?_
      show (applyLast page (c.id, c)).2 = (lastWithId page c.id).getD c
      cases hl : lastWithId page c.id with
      | none => simp [applyLast, hl]
      | some d => simp [applyLast, hl]
    · rw [dedupById, mapFromList, hfiltereq]
  refine ⟨main, fun hp => ?_⟩
  rw [main]
  congr 1
  refine dedupById_of_nodup _ ?_
  exact ((List.filter_sublist page).map (fun c => c.id)).nodup hp

/-- Witness for `mergeCharacters_preserves_positions`: a one-record
collection merged with a page that updates identifier 1 and brings
identifier 2. -/
theorem mergeCharacters_preserves_positions_witness :
    (([⟨1, "Rick", "Alive", ""⟩] : List Character).map (fun c => c.id)).Nodup ∧
    mergeCharacters [⟨1, "Rick", "Alive", ""⟩]
        [⟨1, "Rick B", "Dead", ""⟩, ⟨2, "Beth", "Alive", ""⟩]
      = ([⟨1, "Rick", "Alive", ""⟩] : List Character).map
          (fun c => (lastWithId [⟨1, "Rick B", "Dead", ""⟩, ⟨2, "Beth", "Alive", ""⟩] c.id).getD c)
        ++ dedupById (([⟨1, "Rick B", "Dead", ""⟩, ⟨2, "Beth", "Alive", ""⟩] : List Character).filter
            (fun p => !(([⟨1, "Rick", "Alive", ""⟩] : List Character).any (fun c => c.id == p.id)))) :=
  ⟨by decide,
    (mergeCharacters_preserves_positions [⟨1, "Rick", "Alive", ""⟩]
      [⟨1, "Rick B", "Dead", ""⟩, ⟨2, "Beth", "Alive", ""⟩] (by decide)).1⟩

/-- C4: when a fetch is actually issued and fails, the call changes nothing —
the cursor, the has-more flag and the collection are untouched and the
in-flight flag ends false, so the state equals the pre-call state exactly
(error atomicity); moreover on every path on which a request was issued
(success, empty result, or error) the in-flight flag is false afterwards,
as guaranteed by the `finally` block. -/
theorem loadMoreCharacters_error_atomic :
    (∀ s : PaginationState, s.loadingMore = false → s.hasMore = true →
      loadMoreCharacters s FetchOutcome.fetchError = (s, true)) ∧
    (∀ (s : PaginationState) (o : FetchOutcome),
      (loadMoreCharacters s o).2 = true →
      ((loadMoreCharacters s o).1).loadingMore = false) := by
  constructor
  · intro s h1 h2
    obtain ⟨cs, pg, hm, lm⟩ := s
    simp only at h1 h2
    subst h1
    subst h2
    simp [loadMoreCharacters]
  · intro s o hreq
    obtain ⟨cs, pg, hm, lm⟩ := s
    cases lm
    · cases hm
      · simp [loadMoreCharacters] at hreq
      · cases o with
        | ok results =>
          by_cases hr : results.length > 0
          · simp [loadMoreCharacters, hr]
          · simp [loadMoreCharacters, hr]
        | fetchError => simp [loadMoreCharacters]
    · simp [loadMoreCharacters] at hreq

/-- Witness for `loadMoreCharacters_error_atomic` at a concrete idle state. -/
theorem loadMoreCharacters_error_atomic_witness :
    (initialPaginationState []).loadingMore = false ∧
    (initialPaginationState []).hasMore = true ∧
    loadMoreCharacters (initialPaginationState []) FetchOutcome.fetchError
      = (initialPaginationState [], true) :=
  ⟨by decide, by decide,
    loadMoreCharacters_error_atomic.1 (initialPaginationState []) (by decide) (by decide)⟩

/-- Shared helper: the guard at line 46 short-circuits the whole call. -/
theorem loadMore_noop_of_guard (s : PaginationState) (o : FetchOutcome)
    (h : s.loadingMore = true ∨ s.hasMore = false) :
    loadMoreCharacters s o = (s, false) := by
  obtain ⟨cs, pg, hm, lm⟩ := s
  rcases h with h | h
  · simp only at h
    subst h
    simp [loadMoreCharacters]
  · simp only at h
    subst h
    simp [loadMoreCharacters]

/-- C5: whenever a fetch is already in flight or has-more is false,
`loadMore` is a no-op — the state is returned unchanged and no network
request is issued. -/
theorem loadMoreCharacters_guard_noop :
    ∀ (s : PaginationState) (o : FetchOutcome),
      s.loadingMore = true ∨ s.hasMore = false →
      loadMoreCharacters s o = (s, false) := by
  intro s o h
  exact loadMore_noop_of_guard s o h

/-- Witness for `loadMoreCharacters_guard_noop`: a pending state (in-flight
flag raised) ignores a second call. -/
theorem loadMoreCharacters_guard_noop_witness :
    (({ allCharacters := [], page := 1, hasMore := true, loadingMore := true } :
        PaginationState).loadingMore = true ∨
      ({ allCharacters := [], page := 1, hasMore := true, loadingMore := true } :
        PaginationState).hasMore = false) ∧
    loadMoreCharacters
        { allCharacters := [], page := 1, hasMore := true, loadingMore := true }
        (FetchOutcome.ok [⟨1, "Rick", "Alive", ""⟩])
      = ({ allCharacters := [], page := 1, hasMore := true, loadingMore := true }, false) :=
  ⟨Or.inl (by decide),
    loadMoreCharacters_guard_noop
      { allCharacters := [], page := 1, hasMore := true, loadingMore := true }
      (FetchOutcome.ok [⟨1, "Rick", "Alive", ""⟩]) (Or.inl (by decide))⟩

/-- C6: the has-more flag starts true; once false every call is a no-op
that issues no network request; a step never turns has-more back to true;
has-more is set to false exactly by a completed fetch returning an empty
`results` array (any other outcome leaves it unchanged); and along any
sequence of calls, once false it stays false for the rest of the component
lifetime. -/
theorem hasMore_latches :
    (∀ cs : List Character, (initialPaginationState cs).hasMore = true) ∧
    (∀ (s : PaginationState) (o : FetchOutcome), s.hasMore = false →
      loadMoreCharacters s o = (s, false)) ∧
    (∀ (s : PaginationState) (o : FetchOutcome),
      ((loadMoreCharacters s o).1).hasMore = true → s.hasMore = true) ∧
    (∀ s : PaginationState, s.loadingMore = false → s.hasMore = true →
      loadMoreCharacters s (FetchOutcome.ok [])
        = ({ s with hasMore := false }, true)) ∧
    (∀ (s : PaginationState) (o : FetchOutcome), o ≠ FetchOutcome.ok [] →
      ((loadMoreCharacters s o).1).hasMore = s.hasMore) ∧
    (∀ (s : PaginationState) (outcomes : List FetchOutcome), s.hasMore = false →
      (runLoadMore s outcomes).hasMore = false) := by
  have hnoop : ∀ (s : PaginationState) (o : FetchOutcome), s.hasMore = false →
      loadMoreCharacters s o = (s, false) := by
    intro s o h
    exact loadMore_noop_of_guard s o (Or.inr h)
  refine ⟨fun cs => rfl, hnoop, ?_, ?_, ?_, ?_⟩
  · intro s o h
    by_cases hm : s.hasMore = true
    · exact hm
    · have hm' : s.hasMore = false := Bool.eq_false_iff.mpr hm
      rw [hnoop s o hm'] at h
      exact absurd h hm
  · intro s h1 h2
    obtain ⟨cs, pg, hm, lm⟩ := s
    simp only at h1 h2
    subst h1
    subst h2
    simp [loadMoreCharacters]
  · intro s o h
    obtain ⟨cs, pg, hm, lm⟩ := s
    cases lm
    · cases hm
      · simp [loadMoreCharacters]
      · cases o with
        | ok results =>
          cases results with
          | nil => exact absurd rfl h
          | cons r rs => simp [loadMoreCharacters]
        | fetchError => simp [loadMoreCharacters]
    · simp [loadMoreCharacters]
  · intro s outcomes
    induction outcomes generalizing s with
    | nil => intro h; exact h
    | cons o rest ih =>
      intro h
      have : runLoadMore s (o :: rest) = runLoadMore ((loadMoreCharacters s o).1) rest := rfl
      rw [this, hnoop s o h]
      exact ih s h

/-- Witness for `hasMore_latches`: an exhausted state ignores further calls
and stays exhausted along a run. -/
theorem hasMore_latches_witness :
    (({ allCharacters := [], page := 3, hasMore := false, loadingMore := false } :
        PaginationState).hasMore = false) ∧
    loadMoreCharacters
        { allCharacters := [], page := 3, hasMore := false, loadingMore := false }
        FetchOutcome.fetchError
      = ({ allCharacters := [], page := 3, hasMore := false, loadingMore := false }, false) ∧
    (runLoadMore
        { allCharacters := [], page := 3, hasMore := false, loadingMore := false }
        [FetchOutcome.ok [⟨1, "Rick", "Alive", ""⟩], FetchOutcome.fetchError]).hasMore
      = false :=
  ⟨by decide,
    hasMore_latches.2.1
      { allCharacters := [], page := 3, hasMore := false, loadingMore := false }
      FetchOutcome.fetchError (by decide),
    hasMore_latches.2.2.2.2.2
      { allCharacters := [], page := 3, hasMore := false, loadingMore := false }
      [FetchOutcome.ok [⟨1, "Rick", "Alive", ""⟩], FetchOutcome.fetchError] (by decide)⟩

/-- C2 fails on the code: when the status filter is "All" and the search
term is empty, neither `filter` allocates a fresh array, so
`Array.prototype.sort` runs in place on the parent-owned `characters`
array itself.  At the concrete unsorted two-record collection the source
collection after the call is the sorted array, not the original: the
pipeline does mutate the collection it receives. -/
theorem getFilteredAndSortedCharacters_mutates_source :
    (getFilteredAndSortedCharacters
        [⟨2, "b", "Alive", ""⟩, ⟨1, "a", "Alive", ""⟩] "All" "" SortOrder.asc).2
      = [⟨1, "a", "Alive", ""⟩, ⟨2, "b", "Alive", ""⟩] ∧
    (getFilteredAndSortedCharacters
        [⟨2, "b", "Alive", ""⟩, ⟨1, "a", "Alive", ""⟩] "All" "" SortOrder.asc).2
      ≠ [⟨2, "b", "Alive", ""⟩, ⟨1, "a", "Alive", ""⟩] := by
  constructor
  · decide
  · decide

/-- C7 as stated is false on the code: `saveEdit` never calls
`setSelectedCharacter(null)`, so the selection is not cleared.  At a
concrete state whose selection is set, it is still set after saving. -/
theorem saveEdit_does_not_clear_selection :
    (saveEdit
        { characters := [⟨1, "Rick", "Alive", ""⟩],
          selectedCharacter := some ⟨1, "Rick", "Alive", ""⟩,
          isModalVisible := false, isEditModalVisible := true }
        ⟨1, "Rick Prime", "Dead", ""⟩).selectedCharacter
      = some ⟨1, "Rick", "Alive", ""⟩ ∧
    (saveEdit
        { characters := [⟨1, "Rick", "Alive", ""⟩],
          selectedCharacter := some ⟨1, "Rick", "Alive", ""⟩,
          isModalVisible := false, isEditModalVisible := true }
        ⟨1, "Rick Prime", "Dead", ""⟩).selectedCharacter ≠ none := by
  constructor
  · decide
  · decide

/-- C7 (amended): `saveEdit(updated)` replaces, position by position,
exactly the records whose identifier equals `updated.id` (every record
with a different identifier is unchanged and keeps its position), and
hides the edit overlay; the current selection and the detail-overlay flag
are left unchanged — the selection is not cleared. -/
theorem saveEdit_spec (s : UIState) (u : Character) :
    (∀ k : Nat, ((saveEdit s u).characters)[k]?
      = (s.characters[k]?).map (fun c => if c.id = u.id then u else c)) ∧
    (saveEdit s u).isEditModalVisible = false ∧
    (saveEdit s u).selectedCharacter = s.selectedCharacter ∧
    (saveEdit s u).isModalVisible = s.isModalVisible := by
  refine ⟨fun k => ?_, rfl, rfl, rfl⟩
  show (s.characters.map
      (fun char => if char.id == u.id then u else char))[k]?
    = (s.characters[k]?).map (fun c => if c.id = u.id then u else c)
  rw [List.getElem?_map]
  cases hk : s.characters[k]? with
  | none => rfl
  | some c =>
    simp only [Option.map_some']
    by_cases hc : c.id = u.id
    · rw [if_pos (beq_iff_eq.mpr hc), if_pos hc]
    · rw [if_neg (by simpa using hc), if_neg hc]

/-- C8 as stated is false on the code: `Alert.alert` returns immediately
and line 130 (`setIsModalVisible(false)`) runs before the user answers, so
even on cancel the detail overlay is hidden — the state does change.  At a
concrete state with the detail overlay open, cancelling still produces a
different state. -/
theorem handleDelete_cancel_changes_state :
    handleDelete
        { characters := [⟨5, "Jerry", "Alive", ""⟩],
          selectedCharacter := some ⟨5, "Jerry", "Alive", ""⟩,
          isModalVisible := true, isEditModalVisible := false } 5 false
      ≠ { characters := [⟨5, "Jerry", "Alive", ""⟩],
          selectedCharacter := some ⟨5, "Jerry", "Alive", ""⟩,
          isModalVisible := true, isEditModalVisible := false } := by
  decide

/-- C8 (amended): `requestDelete(id)` hides the detail overlay
immediately, regardless of the answer; on confirm every record with the
given identifier is removed (none remains, all others are preserved in
order); on cancel the collection is unchanged (but the overlay is still
hidden, so the state does change whenever the overlay was open); the
selection and the edit-overlay flag are retained in both cases. -/
theorem handleDelete_spec (s : UIState) (i : Nat) :
    (handleDelete s i true).characters = s.characters.filter (fun c => !(c.id == i)) ∧
    ((handleDelete s i true).characters.all (fun c => !(c.id == i)) = true) ∧
    (handleDelete s i true).characters.Sublist s.characters ∧
    (handleDelete s i true).isModalVisible = false ∧
    (handleDelete s i false).characters = s.characters ∧
    (handleDelete s i false).isModalVisible = false ∧
    (handleDelete s i true).selectedCharacter = s.selectedCharacter ∧
    (handleDelete s i false).selectedCharacter = s.selectedCharacter ∧
    (handleDelete s i true).isEditModalVisible = s.isEditModalVisible ∧
    (handleDelete s i false).isEditModalVisible = s.isEditModalVisible := by
  refine ⟨rfl, ?_, ?_, rfl, rfl, rfl, rfl, rfl, rfl, rfl⟩
  · rw [List.all_eq_true]
    intro c hc
    have : c ∈ s.characters.filter (fun c => !(c.id == i)) := hc
    exact (List.mem_filter.mp this).2
  · show List.Sublist (s.characters.filter (fun c => !(c.id == i))) s.characters
    exact List.filter_sublist s.characters
